import Mathlib

/-!
Verification of a fixed-capacity circular FIFO queue (`ConstQueue`),
shallowly embedded from the Rust source (src/lib.rs).  The buffer is a
list of optional slots; the const generic `SIZE` is passed explicitly to
every operation that uses it.  Mutating Rust methods become functions
returning the result paired with the successor state; the two potentially
panicking paths (the unwrap inside `pop` and the abort inside `force_push`)
are modelled by the `PanicOr` wrapper.
-/

set_option maxHeartbeats 1000000

/-- Error taxonomy of the queue, from `enum QueueErr` in src/lib.rs. -/
inductive QueueErr where
  | QueueFull
  | Empty
  | UnknownError
deriving DecidableEq

/-- Outcome of an operation that may abort the process (Rust `panic`). -/
inductive PanicOr (α : Type) where
  | panicked
  | ok (a : α)
deriving DecidableEq

instance {ε α : Type} [DecidableEq ε] [DecidableEq α] : DecidableEq (Except ε α) :=
  fun a b =>
    match a, b with
    | .ok x, .ok y => decidable_of_iff (x = y) (by simp)
    | .error e, .error f => decidable_of_iff (e = f) (by simp)
    | .ok _, .error _ => .isFalse (by simp)
    | .error _, .ok _ => .isFalse (by simp)

/-- Queue state, from `struct ConstQueue<Ty, const SIZE: usize>`:
a buffer of optional slots plus the two cursors `start` and `end`. -/
structure ConstQueue (Ty : Type) where
  buff : List (Option Ty)
  start : Nat
  «end» : Nat
deriving DecidableEq

namespace ConstQueue

/-- Rust `ConstQueue::new`: all slots vacant, both cursors zero. -/
def new (Ty : Type) (SIZE : Nat) : ConstQueue Ty :=
  { buff := List.replicate SIZE none, start := 0, «end» := 0 }

/-- Rust `ConstQueue::peek`: branches on `start < end` and `start > end`,
reads slot `start`, and signals `UnknownError` on a vacant slot. -/
def peek (q : ConstQueue Ty) : Except QueueErr Ty :=
  if q.start < q.«end» then
    match q.buff.getD q.start none with
    | some x => .ok x
    | none => .error .UnknownError
  else if q.«end» < q.start then
    match q.buff.getD q.start none with
    | some x => .ok x
    | none => .error .UnknownError
  else
    .error .Empty

/-- Rust `ConstQueue::empty`: calls `peek` and reports whether it failed
with `QueueErr::Empty`. -/
def empty (q : ConstQueue Ty) : Bool :=
  match q.peek with
  | .error e => decide (e = QueueErr.Empty)
  | .ok _ => false

/-- Rust `ConstQueue::push`: rejects with `QueueFull` when advancing `end`
would collide with `start`; otherwise stores at `end` and advances it. -/
def push (SIZE : Nat) (q : ConstQueue Ty) (item : Ty) :
    Except QueueErr Unit × ConstQueue Ty :=
  let next_end := (q.«end» + 1) % SIZE
  if next_end = q.start then
    (.error .QueueFull, q)
  else
    (.ok (), { q with buff := q.buff.set q.«end» (some item), «end» := next_end })

/-- Rust `ConstQueue::force_push`: performs `push` and aborts when it failed. -/
def force_push (SIZE : Nat) (q : ConstQueue Ty) (item : Ty) :
    PanicOr (ConstQueue Ty) :=
  match push SIZE q item with
  | (.error _, _) => .panicked
  | (.ok _, q1) => .ok q1

/-- Rust `ConstQueue::pop`: fails with `Empty` when `start == end`; otherwise
takes the slot at `start` (vacating it), unwraps it (aborting when the
slot was vacant), and advances `start`. -/
def pop (SIZE : Nat) (q : ConstQueue Ty) :
    PanicOr (Except QueueErr Ty × ConstQueue Ty) :=
  if q.start = q.«end» then
    .ok (.error .Empty, q)
  else
    let next_start := (q.start + 1) % SIZE
    match q.buff.getD q.start none with
    | none => .panicked
    | some x =>
      .ok (.ok x, { q with buff := q.buff.set q.start none, start := next_start })

/-- Rust `Iterator::next` for `ConstQueue`: pops, yielding `some` on a popped
element and `none` when the pop failed. -/
def next (SIZE : Nat) (q : ConstQueue Ty) : PanicOr (Option Ty × ConstQueue Ty) :=
  match pop SIZE q with
  | .panicked => .panicked
  | .ok (r, q1) =>
    match r with
    | .ok x => .ok (some x, q1)
    | .error _ => .ok (none, q1)

/-- Pushes a whole list of items in order; `some` final state when every
push succeeded, `none` when any push failed. -/
def pushAllQ (SIZE : Nat) : ConstQueue Ty → List Ty → Option (ConstQueue Ty)
  | q, [] => some q
  | q, x :: xs =>
    match push SIZE q x with
    | (.ok _, q1) => pushAllQ SIZE q1 xs
    | (.error _, _) => none

/-- Performs `n` successive pops, collecting the result of each pop. -/
def popN (SIZE : Nat) :
    ConstQueue Ty → Nat → PanicOr (List (Except QueueErr Ty) × ConstQueue Ty)
  | q, 0 => .ok ([], q)
  | q, n + 1 =>
    match pop SIZE q with
    | .panicked => .panicked
    | .ok (r, q1) =>
      match popN SIZE q1 n with
      | .panicked => .panicked
      | .ok (rs, q2) => .ok (r :: rs, q2)

/-- Drains the queue through the iteration adapter: calls `next` until it
yields nothing or the fuel runs out, collecting the yielded elements. -/
def drain (SIZE : Nat) : Nat → ConstQueue Ty → PanicOr (List Ty × ConstQueue Ty)
  | 0, q => .ok ([], q)
  | fuel + 1, q =>
    match next SIZE q with
    | .panicked => .panicked
    | .ok (none, q1) => .ok ([], q1)
    | .ok (some x, q1) =>
      match drain SIZE fuel q1 with
      | .panicked => .panicked
      | .ok (xs, q2) => .ok (x :: xs, q2)

/-- Abstraction relation: the queue state `q`, of capacity `SIZE`,
represents exactly the FIFO contents `l` (oldest first).  The occupied
slots are `(start + k) % SIZE` for `k` below `l.length`, holding the
elements of `l` in order; every other slot is vacant. -/
def Models (SIZE : Nat) (l : List Ty) (q : ConstQueue Ty) : Prop :=
  q.buff.length = SIZE ∧ q.start < SIZE ∧ q.«end» < SIZE ∧ l.length < SIZE ∧
  q.«end» = (q.start + l.length) % SIZE ∧
  (∀ k, k < l.length → q.buff.getD ((q.start + k) % SIZE) none = l[k]?) ∧
  (∀ i, i < SIZE → (∀ k, k < l.length → i ≠ (q.start + k) % SIZE) →
    q.buff.getD i none = none)

instance (SIZE : Nat) [DecidableEq Ty] (l : List Ty) (q : ConstQueue Ty) :
    Decidable (Models SIZE l q) := by
  unfold Models
  infer_instance

/-- One externally visible mutation of the queue: a `push` (successful or
not), or a non-aborting `pop`, `force_push` or iterator `next`. -/
inductive Step (Ty : Type) (SIZE : Nat) : ConstQueue Ty → ConstQueue Ty → Prop where
  | pushStep (q : ConstQueue Ty) (item : Ty) : Step Ty SIZE q (push SIZE q item).2
  | popStep (q q1 : ConstQueue Ty) (r : Except QueueErr Ty)
      (h : pop SIZE q = .ok (r, q1)) : Step Ty SIZE q q1
  | forceStep (q q1 : ConstQueue Ty) (item : Ty)
      (h : force_push SIZE q item = .ok q1) : Step Ty SIZE q q1
  | nextStep (q q1 : ConstQueue Ty) (r : Option Ty)
      (h : next SIZE q = .ok (r, q1)) : Step Ty SIZE q q1

/-- States reachable from a freshly constructed queue by any sequence of
operations (`peek` and `empty` take `&self` and cannot change state). -/
def Reachable (Ty : Type) (SIZE : Nat) (q : ConstQueue Ty) : Prop :=
  Relation.ReflTransGen (Step Ty SIZE) (new Ty SIZE) q

/-- Slot indices of the wrapped occupied run: `start, start+1 mod SIZE, ...`,
`n` of them in total. -/
def runIdx (SIZE s n : Nat) : List Nat :=
  (List.range n).map (fun k => (s + k) % SIZE)

end ConstQueue

namespace ConstQueue

theorem getD_set_self {α : Type} (l : List α) (i : Nat) (v d : α) (h : i < l.length) :
    (l.set i v).getD i d = v := by
  rw [List.getD_eq_getElem?_getD, List.getElem?_set_eq_of_lt v h]
  rfl

theorem getD_set_other {α : Type} (l : List α) (i j : Nat) (v d : α) (h : i ≠ j) :
    (l.set i v).getD j d = l.getD j d := by
  rw [List.getD_eq_getElem?_getD, List.getElem?_set_ne h, ← List.getD_eq_getElem?_getD]

theorem getD_replicate_none {α : Type} (n i : Nat) :
    (List.replicate n (none : Option α)).getD i none = none := by
  rw [List.getD_eq_getElem?_getD]
  rcases Nat.lt_or_ge i n with h | h
  · simp [List.getElem?_replicate, h]
  · rw [List.getElem?_eq_none (by simpa using h)]
    rfl

theorem mod_two_cases (a SIZE : Nat) (h : a < 2 * SIZE) :
    a % SIZE = if a < SIZE then a else a - SIZE := by
  split
  · exact Nat.mod_eq_of_lt (by assumption)
  · rw [Nat.mod_eq_sub_mod (by omega), Nat.mod_eq_of_lt (by omega)]

theorem addmod_inj (SIZE s k1 k2 : Nat) (hs : s < SIZE) (h1 : k1 < SIZE) (h2 : k2 < SIZE)
    (h : (s + k1) % SIZE = (s + k2) % SIZE) : k1 = k2 := by
  rw [mod_two_cases (s + k1) SIZE (by omega), mod_two_cases (s + k2) SIZE (by omega)] at h
  split_ifs at h <;> omega

theorem run_len (SIZE s n : Nat) (hs : s < SIZE) (hn : n < SIZE) :
    ((s + n) % SIZE + SIZE - s) % SIZE = n := by
  have hd := Nat.div_add_mod (s + n) SIZE
  have hrlt : (s + n) % SIZE < SIZE := Nat.mod_lt _ (by omega)
  have key : (s + n) % SIZE + SIZE - s + SIZE * ((s + n) / SIZE) = n + SIZE := by omega
  calc ((s + n) % SIZE + SIZE - s) % SIZE
      = ((s + n) % SIZE + SIZE - s + SIZE * ((s + n) / SIZE)) % SIZE :=
        (Nat.add_mul_mod_self_left _ _ _).symm
    _ = (n + SIZE) % SIZE := by rw [key]
    _ = n := by rw [Nat.add_mod_right, Nat.mod_eq_of_lt hn]

theorem models_new (Ty : Type) (SIZE : Nat) (hS : 1 ≤ SIZE) :
    Models SIZE ([] : List Ty) (new Ty SIZE) := by
  refine ⟨by simp [new], by simpa [new] using hS, by simpa [new] using hS,
    by simpa using hS, by simp [new], ?_, ?_⟩
  · intro k hk
    simp at hk
  · intro i _ _
    exact getD_replicate_none SIZE i

theorem push_full (SIZE : Nat) (l : List Ty) (q : ConstQueue Ty) (item : Ty)
    (hm : Models SIZE l q) (hlen : l.length = SIZE - 1) :
    push SIZE q item = (.error .QueueFull, q) := by
  obtain ⟨hb, hs, he, hl, hE, hocc, hvac⟩ := hm
  have hfull : (q.«end» + 1) % SIZE = q.start := by
    rw [hE, Nat.mod_add_mod, hlen]
    have harith : q.start + (SIZE - 1) + 1 = q.start + SIZE := by omega
    rw [harith, Nat.add_mod_right, Nat.mod_eq_of_lt hs]
  simp [push, hfull]

theorem push_ok (SIZE : Nat) (l : List Ty) (q : ConstQueue Ty) (item : Ty)
    (hm : Models SIZE l q) (hlen : l.length < SIZE - 1) :
    push SIZE q item =
      (.ok (), { q with buff := q.buff.set q.«end» (some item), «end» := (q.«end» + 1) % SIZE })
    ∧ Models SIZE (l ++ [item])
      { q with buff := q.buff.set q.«end» (some item), «end» := (q.«end» + 1) % SIZE } := by
  obtain ⟨hb, hs, he, hl, hE, hocc, hvac⟩ := hm
  have hS : 1 ≤ SIZE := by omega
  have hEfull : (q.«end» + 1) % SIZE = (q.start + (l.length + 1)) % SIZE := by
    rw [hE, Nat.mod_add_mod]
    have harith : q.start + l.length + 1 = q.start + (l.length + 1) := by omega
    rw [harith]
  have hne : (q.«end» + 1) % SIZE ≠ q.start := by
    rw [hEfull]
    intro hcontra
    have h0 : (q.start + (l.length + 1)) % SIZE = (q.start + 0) % SIZE := by
      rw [hcontra]
      simp [Nat.mod_eq_of_lt hs]
    have := addmod_inj SIZE q.start (l.length + 1) 0 hs (by omega) (by omega) h0
    omega
  refine ⟨by simp [push, hne], ?_, hs, Nat.mod_lt _ (by omega), by simp; omega, ?_, ?_, ?_⟩
  · simp [List.length_set, hb]
  · simp [hEfull]
  · intro k hk
    simp only [List.length_append, List.length_cons, List.length_nil] at hk
    rcases Nat.lt_or_ge k l.length with hklt | hkge
    · have hidx : (q.start + k) % SIZE ≠ q.«end» := by
        rw [hE]
        intro hcontra
        have := addmod_inj SIZE q.start k l.length hs (by omega) (by omega) hcontra
        omega
      rw [getD_set_other _ _ _ _ _ (fun hcontra => hidx hcontra.symm), hocc k hklt,
        List.getElem?_append]
      simp [hklt]
    · have hkeq : k = l.length := by omega
      subst hkeq
      rw [← hE, getD_set_self _ _ _ _ (by omega), List.getElem?_concat_length]
  · intro i hi hmiss
    simp only [List.length_append, List.length_cons, List.length_nil] at hmiss
    have hie : i ≠ q.«end» := by
      intro hcontra
      exact hmiss l.length (by omega) (by rw [hcontra, hE])
    rw [getD_set_other _ _ _ _ _ (fun hcontra => hie hcontra.symm)]
    exact hvac i hi (fun k hk => hmiss k (by omega))

theorem models_nil_eq (SIZE : Nat) (q : ConstQueue Ty)
    (hm : Models SIZE ([] : List Ty) q) : q.start = q.«end» := by
  obtain ⟨_, hs, _, _, hE, _, _⟩ := hm
  rw [hE]
  simp [Nat.mod_eq_of_lt hs]

theorem models_cons_ne (SIZE : Nat) (x : Ty) (l : List Ty) (q : ConstQueue Ty)
    (hm : Models SIZE (x :: l) q) : q.start ≠ q.«end» := by
  obtain ⟨_, hs, _, hl, hE, _, _⟩ := hm
  simp only [List.length_cons] at hl hE
  intro hcontra
  have h0 : (q.start + 0) % SIZE = (q.start + (l.length + 1)) % SIZE := by
    rw [← hE, ← hcontra]
    simp [Nat.mod_eq_of_lt hs]
  have := addmod_inj SIZE q.start 0 (l.length + 1) hs (by omega) (by omega) h0
  omega

theorem models_cons_slot (SIZE : Nat) (x : Ty) (l : List Ty) (q : ConstQueue Ty)
    (hm : Models SIZE (x :: l) q) : q.buff.getD q.start none = some x := by
  obtain ⟨_, hs, _, _, _, hocc, _⟩ := hm
  have h0 := hocc 0 (by simp)
  simpa [Nat.mod_eq_of_lt hs] using h0

theorem pop_nil (SIZE : Nat) (q : ConstQueue Ty) (hm : Models SIZE ([] : List Ty) q) :
    pop SIZE q = .ok (.error .Empty, q) := by
  simp [pop, models_nil_eq SIZE q hm]

theorem pop_cons (SIZE : Nat) (x : Ty) (l : List Ty) (q : ConstQueue Ty)
    (hm : Models SIZE (x :: l) q) :
    pop SIZE q =
      .ok (.ok x, { q with buff := q.buff.set q.start none, start := (q.start + 1) % SIZE })
    ∧ Models SIZE l
      { q with buff := q.buff.set q.start none, start := (q.start + 1) % SIZE } := by
  have hne := models_cons_ne SIZE x l q hm
  have hslot := models_cons_slot SIZE x l q hm
  obtain ⟨hb, hs, he, hl, hE, hocc, hvac⟩ := hm
  simp only [List.length_cons] at hl hE
  simp only [List.getD_eq_getElem?_getD] at hslot
  have hS : 1 ≤ SIZE := by omega
  refine ⟨by simp [pop, hne, hslot], ?_, Nat.mod_lt _ (by omega), he, by simpa using by omega, ?_, ?_, ?_⟩
  · simp [List.length_set, hb]
  · show q.«end» = ((q.start + 1) % SIZE + l.length) % SIZE
    rw [Nat.mod_add_mod, hE]
    have harith : q.start + 1 + l.length = q.start + (l.length + 1) := by omega
    rw [harith]
  · intro k hk
    show (q.buff.set q.start none).getD (((q.start + 1) % SIZE + k) % SIZE) none = l[k]?
    rw [Nat.mod_add_mod]
    have harith : q.start + 1 + k = q.start + (k + 1) := by omega
    rw [harith]
    have hidx : (q.start + (k + 1)) % SIZE ≠ q.start := by
      intro hcontra
      have h0 : (q.start + (k + 1)) % SIZE = (q.start + 0) % SIZE := by
        rw [hcontra]
        simp [Nat.mod_eq_of_lt hs]
      have := addmod_inj SIZE q.start (k + 1) 0 hs (by omega) (by omega) h0
      omega
    rw [getD_set_other _ _ _ _ _ (fun hcontra => hidx hcontra.symm)]
    have := hocc (k + 1) (by simpa using by omega)
    simpa using this
  · intro i hi hmiss
    show (q.buff.set q.start none).getD i none = none
    by_cases hieq : i = q.start
    · subst hieq
      exact getD_set_self _ _ _ _ (by omega)
    · rw [getD_set_other _ _ _ _ _ (fun hcontra => hieq hcontra.symm)]
      refine hvac i hi ?_
      intro k hk
      simp only [List.length_cons] at hk
      cases k with
      | zero =>
        simpa [Nat.mod_eq_of_lt hs] using hieq
      | succ j =>
        have hj := hmiss j (by omega)
        show i ≠ (q.start + (j + 1)) % SIZE
        have harith : q.start + (j + 1) = q.start + 1 + j := by omega
        rw [harith, ← Nat.mod_add_mod]
        exact hj

theorem peek_nil (SIZE : Nat) (q : ConstQueue Ty) (hm : Models SIZE ([] : List Ty) q) :
    peek q = .error .Empty := by
  have hse := models_nil_eq SIZE q hm
  simp [peek, hse]

theorem peek_cons (SIZE : Nat) (x : Ty) (l : List Ty) (q : ConstQueue Ty)
    (hm : Models SIZE (x :: l) q) : peek q = .ok x := by
  have hne := models_cons_ne SIZE x l q hm
  have hslot := models_cons_slot SIZE x l q hm
  simp only [List.getD_eq_getElem?_getD] at hslot
  unfold peek
  rcases Nat.lt_trichotomy q.start q.«end» with h | h | h
  · simp [h, hslot]
  · exact absurd h hne
  · simp [Nat.lt_asymm h, h, hslot]

theorem next_nil (SIZE : Nat) (q : ConstQueue Ty) (hm : Models SIZE ([] : List Ty) q) :
    next SIZE q = .ok (none, q) := by
  simp [next, pop_nil SIZE q hm]

theorem next_cons (SIZE : Nat) (x : Ty) (l : List Ty) (q : ConstQueue Ty)
    (hm : Models SIZE (x :: l) q) :
    next SIZE q =
      .ok (some x, { q with buff := q.buff.set q.start none, start := (q.start + 1) % SIZE })
    ∧ Models SIZE l
      { q with buff := q.buff.set q.start none, start := (q.start + 1) % SIZE } := by
  obtain ⟨h1, h2⟩ := pop_cons SIZE x l q hm
  exact ⟨by simp [next, h1], h2⟩

theorem force_push_ok_of_push (SIZE : Nat) (q q1 : ConstQueue Ty) (item : Ty)
    (h : push SIZE q item = (.ok (), q1)) : force_push SIZE q item = .ok q1 := by
  simp [force_push, h]

theorem peek_error_empty_iff (q : ConstQueue Ty) :
    peek q = .error .Empty ↔ q.start = q.«end» := by
  unfold peek
  rcases Nat.lt_trichotomy q.start q.«end» with h | h | h
  · rw [if_pos h]
    cases q.buff.getD q.start none <;> simp [Nat.ne_of_lt h]
  · rw [if_neg (by omega), if_neg (by omega)]
    simp [h]
  · rw [if_neg (by omega), if_pos h]
    cases q.buff.getD q.start none <;> simp [show q.start ≠ q.«end» by omega]

theorem empty_eq_decide (q : ConstQueue Ty) :
    empty q = decide (q.start = q.«end») := by
  unfold empty
  cases hp : q.peek with
  | ok x =>
    have hne : q.start ≠ q.«end» := by
      intro hc
      have h2 := (peek_error_empty_iff q).mpr hc
      rw [hp] at h2
      exact Except.noConfusion h2
    simp [hne]
  | error e =>
    by_cases hse : q.start = q.«end»
    · have h2 := (peek_error_empty_iff q).mpr hse
      rw [hp] at h2
      have he : e = QueueErr.Empty := by
        injection h2
      simp [he, hse]
    · have he : e ≠ QueueErr.Empty := by
        intro hc
        exact hse ((peek_error_empty_iff q).mp (by rw [hp, hc]))
      simp [he, hse]

theorem step_models (SIZE : Nat) (q q1 : ConstQueue Ty) (l : List Ty)
    (hstep : Step Ty SIZE q q1) (hm : Models SIZE l q) :
    ∃ l1, Models SIZE l1 q1 := by
  cases hstep with
  | pushStep item =>
    rcases Nat.lt_or_ge l.length (SIZE - 1) with hlt | hge
    · obtain ⟨h1, h2⟩ := push_ok SIZE l q item hm hlt
      exact ⟨l ++ [item], by rw [h1]; exact h2⟩
    · have hlen : l.length = SIZE - 1 := by
        have hl := hm.2.2.2.1
        omega
      rw [push_full SIZE l q item hm hlen]
      exact ⟨l, hm⟩
  | popStep q1x r h =>
    cases l with
    | nil =>
      rw [pop_nil SIZE q hm] at h
      simp at h
      exact ⟨[], h.2 ▸ hm⟩
    | cons x xs =>
      obtain ⟨h1, h2⟩ := pop_cons SIZE x xs q hm
      rw [h1] at h
      simp at h
      exact ⟨xs, h.2 ▸ h2⟩
  | forceStep q1x item h =>
    rcases Nat.lt_or_ge l.length (SIZE - 1) with hlt | hge
    · obtain ⟨h1, h2⟩ := push_ok SIZE l q item hm hlt
      unfold force_push at h
      rw [h1] at h
      simp at h
      exact ⟨l ++ [item], h ▸ h2⟩
    · have hlen : l.length = SIZE - 1 := by
        have hl := hm.2.2.2.1
        omega
      unfold force_push at h
      rw [push_full SIZE l q item hm hlen] at h
      simp at h
  | nextStep q1x r h =>
    cases l with
    | nil =>
      rw [next_nil SIZE q hm] at h
      simp at h
      exact ⟨[], h.2 ▸ hm⟩
    | cons x xs =>
      obtain ⟨h1, h2⟩ := next_cons SIZE x xs q hm
      rw [h1] at h
      simp at h
      exact ⟨xs, h.2 ▸ h2⟩

theorem reachable_models (SIZE : Nat) (hS : 1 ≤ SIZE) (q : ConstQueue Ty)
    (h : Reachable Ty SIZE q) : ∃ l, Models SIZE l q := by
  unfold Reachable at h
  induction h with
  | refl => exact ⟨[], models_new Ty SIZE hS⟩
  | tail hab hbc ih =>
    obtain ⟨l, hl⟩ := ih
    exact step_models SIZE _ _ l hbc hl

theorem pushAll_sound (SIZE : Nat) (m : List Ty) :
    ∀ (l : List Ty) (q q1 : ConstQueue Ty), Models SIZE l q →
    pushAllQ SIZE q m = some q1 → Models SIZE (l ++ m) q1 := by
  induction m with
  | nil =>
    intro l q q1 hm h
    simp [pushAllQ] at h
    subst h
    simpa using hm
  | cons x xs ih =>
    intro l q q1 hm h
    unfold pushAllQ at h
    rcases Nat.lt_or_ge l.length (SIZE - 1) with hlt | hge
    · obtain ⟨h1, h2⟩ := push_ok SIZE l q x hm hlt
      rw [h1] at h
      have h3 := ih (l ++ [x]) _ q1 h2 h
      simpa using h3
    · have hlen : l.length = SIZE - 1 := by
        have hl := hm.2.2.2.1
        omega
      rw [push_full SIZE l q x hm hlen] at h
      simp at h

theorem pushAll_models (SIZE : Nat) (m : List Ty) :
    ∀ (l : List Ty) (q : ConstQueue Ty), Models SIZE l q →
    l.length + m.length ≤ SIZE - 1 →
    ∃ q1, pushAllQ SIZE q m = some q1 ∧ Models SIZE (l ++ m) q1 := by
  induction m with
  | nil =>
    intro l q hm _
    exact ⟨q, rfl, by simpa using hm⟩
  | cons x xs ih =>
    intro l q hm hlen
    simp only [List.length_cons] at hlen
    obtain ⟨h1, h2⟩ := push_ok SIZE l q x hm (by omega)
    obtain ⟨q1, h3, h4⟩ := ih (l ++ [x]) _ h2 (by simp; omega)
    refine ⟨q1, ?_, by simpa using h4⟩
    unfold pushAllQ
    rw [h1]
    exact h3

theorem popN_models (SIZE : Nat) (l : List Ty) :
    ∀ q : ConstQueue Ty, Models SIZE l q →
    ∃ qf, popN SIZE q l.length = .ok (l.map Except.ok, qf) ∧
      Models SIZE ([] : List Ty) qf := by
  induction l with
  | nil =>
    intro q hm
    exact ⟨q, rfl, hm⟩
  | cons x xs ih =>
    intro q hm
    obtain ⟨h1, h2⟩ := pop_cons SIZE x xs q hm
    obtain ⟨qf, h3, h4⟩ := ih _ h2
    refine ⟨qf, ?_, h4⟩
    show popN SIZE q (xs.length + 1) = .ok ((x :: xs).map Except.ok, qf)
    unfold popN
    rw [h1]
    simp [h3]

theorem drain_models (SIZE : Nat) (l : List Ty) :
    ∀ (fuel : Nat) (q : ConstQueue Ty), Models SIZE l q → l.length ≤ fuel →
    ∃ qf, drain SIZE fuel q = .ok (l, qf) ∧ Models SIZE ([] : List Ty) qf := by
  induction l with
  | nil =>
    intro fuel q hm _
    cases fuel with
    | zero => exact ⟨q, rfl, hm⟩
    | succ f =>
      refine ⟨q, ?_, hm⟩
      simp [drain, next_nil SIZE q hm]
  | cons x xs ih =>
    intro fuel q hm hlen
    cases fuel with
    | zero => simp at hlen
    | succ f =>
      obtain ⟨h1, h2⟩ := next_cons SIZE x xs q hm
      obtain ⟨qf, h3, h4⟩ := ih f _ h2 (by simp at hlen; omega)
      refine ⟨qf, ?_, h4⟩
      simp [drain, h1, h3]

theorem push_success_cursors (SIZE : Nat) (q q1 : ConstQueue Ty) (item : Ty)
    (h : push SIZE q item = (.ok (), q1)) :
    q1.start = q.start ∧ q1.«end» = (q.«end» + 1) % SIZE ∧
    (q.«end» + 1) % SIZE ≠ q.start := by
  by_cases hc : (q.«end» + 1) % SIZE = q.start
  · simp [push, hc] at h
  · simp [push, hc] at h
    rw [← h]
    exact ⟨rfl, rfl, hc⟩

/-- Claim C1: strict FIFO — when a sequence of pushes with items `l`, from a
fresh queue, all succeed, the subsequent `l.length` pops return exactly those
items in the same order, with each pop retrieving one prior pushed element. -/
theorem claim1_fifo (Ty : Type) (SIZE : Nat) (hS : 1 ≤ SIZE) (l : List Ty)
    (q1 : ConstQueue Ty) (hpush : pushAllQ SIZE (new Ty SIZE) l = some q1) :
    ∃ qf, popN SIZE q1 l.length = .ok (l.map Except.ok, qf) := by
  have hm0 := models_new Ty SIZE hS
  have hm1 := pushAll_sound SIZE l [] _ q1 hm0 hpush
  simp only [List.nil_append] at hm1
  obtain ⟨qf, h1, _⟩ := popN_models SIZE l q1 hm1
  exact ⟨qf, h1⟩

/-- Witness for C1 at capacity 3 with two pushed items. -/
theorem claim1_fifo_witness :
    ∃ qf, popN 3 (⟨[some 7, some 8, none], 0, 2⟩ : ConstQueue Nat) [7, 8].length =
      .ok ([7, 8].map Except.ok, qf) :=
  claim1_fifo Nat 3 (by decide) [7, 8] ⟨[some 7, some 8, none], 0, 2⟩ (by decide)

/-- Claim C2: effective capacity is SIZE − 1 — from a fresh queue of capacity
`SIZE ≥ 1`, every sequence of `SIZE − 1` pushes succeeds, and any further push
fails with `QueueFull` leaving the state unchanged (for SIZE = 1 the sequence
is empty, so every push on the fresh queue fails). -/
theorem claim2_capacity (Ty : Type) (SIZE : Nat) (hS : 1 ≤ SIZE) (l : List Ty)
    (hlen : l.length = SIZE - 1) :
    ∃ q1, pushAllQ SIZE (new Ty SIZE) l = some q1 ∧
      ∀ item, push SIZE q1 item = (.error .QueueFull, q1) := by
  have hm0 := models_new Ty SIZE hS
  obtain ⟨q1, h1, h2⟩ := pushAll_models SIZE l [] (new Ty SIZE) hm0 (by simp; omega)
  refine ⟨q1, h1, fun item => ?_⟩
  have hm1 : Models SIZE l q1 := by simpa using h2
  exact push_full SIZE l q1 item hm1 hlen

/-- Witness for C2 at capacity 3: both pushes of [1, 2] succeed and a third
push fails. -/
theorem claim2_capacity_witness :
    ∃ q1, pushAllQ 3 (new Nat 3) [1, 2] = some q1 ∧
      ∀ item, push 3 q1 item = (.error .QueueFull, q1) :=
  claim2_capacity Nat 3 (by decide) [1, 2] (by decide)

/-- Claim C3: push fails with `QueueFull` exactly when `(end + 1) % SIZE ==
start`; on failure the whole state is unchanged, otherwise the item is stored
at slot `end`, `end` advances modulo SIZE, and the call succeeds. -/
theorem claim3_push_spec (Ty : Type) (SIZE : Nat) (q : ConstQueue Ty) (item : Ty) :
    ((push SIZE q item).1 = .error .QueueFull ↔ (q.«end» + 1) % SIZE = q.start)
    ∧ ((q.«end» + 1) % SIZE = q.start → push SIZE q item = (.error .QueueFull, q))
    ∧ ((q.«end» + 1) % SIZE ≠ q.start → push SIZE q item =
        (.ok (), { q with buff := q.buff.set q.«end» (some item), «end» := (q.«end» + 1) % SIZE })) := by
  by_cases h : (q.«end» + 1) % SIZE = q.start <;> simp [push, h]

/-- Witness for C3: a push on a fresh capacity-3 queue takes the success
branch. -/
theorem claim3_push_spec_witness :
    push 3 (new Nat 3) 5 =
      (.ok (), { new Nat 3 with buff := (new Nat 3).buff.set (new Nat 3).«end» (some 5), «end» := ((new Nat 3).«end» + 1) % 3 }) :=
  (claim3_push_spec Nat 3 (new Nat 3) 5).2.2 (by decide)

/-- Claim C4: pop fails with `Empty` iff `start == end`, leaving the state
unchanged; otherwise (on any reachable state) it removes and returns the
element stored at slot `start`, vacates that slot, and advances `start`
modulo SIZE. -/
theorem claim4_pop_spec (Ty : Type) (SIZE : Nat) (hS : 1 ≤ SIZE) (q : ConstQueue Ty)
    (hr : Reachable Ty SIZE q) :
    (q.start = q.«end» → pop SIZE q = .ok (.error .Empty, q))
    ∧ (q.start ≠ q.«end» → ∃ x, q.buff.getD q.start none = some x ∧
        pop SIZE q = .ok (.ok x, { q with buff := q.buff.set q.start none, start := (q.start + 1) % SIZE })) := by
  obtain ⟨l, hm⟩ := reachable_models SIZE hS q hr
  constructor
  · intro hse
    simp [pop, hse]
  · intro hne
    cases l with
    | nil => exact absurd (models_nil_eq SIZE q hm) hne
    | cons x xs =>
      obtain ⟨h1, _⟩ := pop_cons SIZE x xs q hm
      exact ⟨x, models_cons_slot SIZE x xs q hm, h1⟩

/-- Witness for C4: pop on a fresh capacity-1 queue fails with `Empty`. -/
theorem claim4_pop_spec_witness :
    pop 1 (new Nat 1) = .ok (.error .Empty, new Nat 1) :=
  (claim4_pop_spec Nat 1 (by decide) (new Nat 1) Relation.ReflTransGen.refl).1 (by decide)

/-- Claim C5: on every reachable state, peek returns the oldest stored
element (the one at slot `start`) when `start ≠ end`, fails with `Empty`
exactly when `start == end`, and never returns `UnknownError`. -/
theorem claim5_peek_safe (Ty : Type) (SIZE : Nat) (hS : 1 ≤ SIZE) (q : ConstQueue Ty)
    (hr : Reachable Ty SIZE q) :
    (q.start = q.«end» → peek q = .error .Empty)
    ∧ (q.start ≠ q.«end» → ∃ x, q.buff.getD q.start none = some x ∧ peek q = .ok x)
    ∧ peek q ≠ .error .UnknownError := by
  obtain ⟨l, hm⟩ := reachable_models SIZE hS q hr
  refine ⟨fun hse => (peek_error_empty_iff q).mpr hse, ?_, ?_⟩
  · intro hne
    cases l with
    | nil => exact absurd (models_nil_eq SIZE q hm) hne
    | cons x xs => exact ⟨x, models_cons_slot SIZE x xs q hm, peek_cons SIZE x xs q hm⟩
  · cases l with
    | nil =>
      rw [peek_nil SIZE q hm]
      simp
    | cons x xs =>
      rw [peek_cons SIZE x xs q hm]
      simp

/-- Witness for C5: peek on the fresh capacity-3 queue is not
`UnknownError`. -/
theorem claim5_peek_safe_witness :
    peek (new Nat 3) ≠ .error .UnknownError :=
  (claim5_peek_safe Nat 3 (by decide) (new Nat 3) Relation.ReflTransGen.refl).2.2

/-- Claim C6: empty returns true iff `start == end` and agrees with the peek
`Empty` classification; it is true on a fresh queue, false after any
successful push, and true again once all previously pushed elements have
been popped. -/
theorem claim6_empty_consistent (Ty : Type) :
    (∀ q : ConstQueue Ty, empty q = true ↔ q.start = q.«end»)
    ∧ (∀ q : ConstQueue Ty, empty q = true ↔ peek q = .error .Empty)
    ∧ (∀ SIZE : Nat, empty (new Ty SIZE) = true)
    ∧ (∀ (SIZE : Nat) (q q1 : ConstQueue Ty) (item : Ty),
        push SIZE q item = (.ok (), q1) → empty q1 = false)
    ∧ (∀ SIZE : Nat, 1 ≤ SIZE → ∀ (l : List Ty) (q1 : ConstQueue Ty),
        pushAllQ SIZE (new Ty SIZE) l = some q1 →
        ∀ rs qf, popN SIZE q1 l.length = .ok (rs, qf) → empty qf = true) := by
  refine ⟨?_, ?_, ?_, ?_, ?_⟩
  · intro q
    rw [empty_eq_decide]
    simp
  · intro q
    rw [empty_eq_decide, peek_error_empty_iff]
    simp
  · intro SIZE
    rw [empty_eq_decide]
    simp [new]
  · intro SIZE q q1 item h
    obtain ⟨hs1, he1, hne⟩ := push_success_cursors SIZE q q1 item h
    rw [empty_eq_decide, hs1, he1]
    simp [Ne.symm hne]
  · intro SIZE hS l q1 hpA rs qf hpN
    have hm0 := models_new Ty SIZE hS
    have hm1 := pushAll_sound SIZE l [] _ q1 hm0 hpA
    simp only [List.nil_append] at hm1
    obtain ⟨qf0, h1, h2⟩ := popN_models SIZE l q1 hm1
    have heq := hpN.symm.trans h1
    simp at heq
    obtain ⟨_, h4⟩ := heq
    subst h4
    rw [empty_eq_decide, models_nil_eq SIZE qf h2]
    simp

/-- Witness for C6: after one successful push on a fresh capacity-3 queue,
`empty` is false. -/
theorem claim6_empty_consistent_witness :
    empty (⟨[some 5, none, none], 0, 1⟩ : ConstQueue Nat) = false :=
  (claim6_empty_consistent Nat).2.2.2.1 3 (new Nat 3) ⟨[some 5, none, none], 0, 1⟩ 5
    (by decide)

/-- Claim C7: wraparound — from any full reachable configuration, one pop
followed by one push succeeds; and the concrete capacity-3 trace push(1) Ok,
push(2) Ok, push(3) QueueFull, pop Ok(1), push(3) Ok, pop Ok(2), pop Ok(3),
pop Empty holds exactly. -/
theorem claim7_wraparound (Ty : Type) (SIZE : Nat) (hS : 2 ≤ SIZE) (l : List Ty)
    (q : ConstQueue Ty) (hm : Models SIZE l q) (hfull : l.length = SIZE - 1) (item : Ty) :
    (∃ x q1 q2, pop SIZE q = .ok (.ok x, q1) ∧ push SIZE q1 item = (.ok (), q2))
    ∧ (push 3 (new Nat 3) 1 = (.ok (), ⟨[some 1, none, none], 0, 1⟩)
    ∧ push 3 (⟨[some 1, none, none], 0, 1⟩ : ConstQueue Nat) 2 = (.ok (), ⟨[some 1, some 2, none], 0, 2⟩)
    ∧ push 3 (⟨[some 1, some 2, none], 0, 2⟩ : ConstQueue Nat) 3 = (.error .QueueFull, ⟨[some 1, some 2, none], 0, 2⟩)
    ∧ pop 3 (⟨[some 1, some 2, none], 0, 2⟩ : ConstQueue Nat) = .ok (.ok 1, ⟨[none, some 2, none], 1, 2⟩)
    ∧ push 3 (⟨[none, some 2, none], 1, 2⟩ : ConstQueue Nat) 3 = (.ok (), ⟨[none, some 2, some 3], 1, 0⟩)
    ∧ pop 3 (⟨[none, some 2, some 3], 1, 0⟩ : ConstQueue Nat) = .ok (.ok 2, ⟨[none, none, some 3], 2, 0⟩)
    ∧ pop 3 (⟨[none, none, some 3], 2, 0⟩ : ConstQueue Nat) = .ok (.ok 3, ⟨[none, none, none], 0, 0⟩)
    ∧ pop 3 (⟨[none, none, none], 0, 0⟩ : ConstQueue Nat) = .ok (.error .Empty, ⟨[none, none, none], 0, 0⟩)) := by
  refine ⟨?_, by decide⟩
  cases l with
  | nil =>
    simp at hfull
    omega
  | cons x xs =>
    obtain ⟨h1, h2⟩ := pop_cons SIZE x xs q hm
    have hxs : xs.length < SIZE - 1 := by
      simp at hfull
      omega
    obtain ⟨h3, _⟩ := push_ok SIZE xs _ item h2 hxs
    exact ⟨x, _, _, h1, h3⟩

/-- Witness for C7 on the full capacity-3 queue holding [1, 2]. -/
theorem claim7_wraparound_witness :
    ∃ x q1 q2, pop 3 (⟨[some 1, some 2, none], 0, 2⟩ : ConstQueue Nat) = .ok (.ok x, q1)
      ∧ push 3 q1 9 = (.ok (), q2) :=
  (claim7_wraparound Nat 3 (by decide) [1, 2] ⟨[some 1, some 2, none], 0, 2⟩
    (by decide) (by decide) 9).1

/-- Claim C8: the iteration adapter drains the queue — each `next` yields the
current oldest element and removes it, `next` on an empty queue yields
nothing, draining yields exactly the queue contents in FIFO order (bounded
by occupancy) and leaves the queue empty; concretely a capacity-4 queue
holding [10, 20] drains to exactly [10, 20] and is empty afterwards. -/
theorem claim8_iteration (Ty : Type) (SIZE : Nat) :
    (∀ (x : Ty) (l : List Ty) (q : ConstQueue Ty), Models SIZE (x :: l) q →
      ∃ q1, next SIZE q = .ok (some x, q1) ∧ Models SIZE l q1)
    ∧ (∀ q : ConstQueue Ty, Models SIZE ([] : List Ty) q → next SIZE q = .ok (none, q))
    ∧ (∀ (l : List Ty) (q : ConstQueue Ty) (fuel : Nat), Models SIZE l q → l.length ≤ fuel →
      ∃ qf, drain SIZE fuel q = .ok (l, qf) ∧ qf.start = qf.«end» ∧ empty qf = true)
    ∧ (drain 4 4 (⟨[some 10, some 20, none, none], 0, 2⟩ : ConstQueue Nat) =
        .ok ([10, 20], ⟨[none, none, none, none], 2, 2⟩)
      ∧ empty (⟨[none, none, none, none], 2, 2⟩ : ConstQueue Nat) = true) := by
  refine ⟨?_, ?_, ?_, by decide⟩
  · intro x l q hm
    obtain ⟨h1, h2⟩ := next_cons SIZE x l q hm
    exact ⟨_, h1, h2⟩
  · intro q hm
    exact next_nil SIZE q hm
  · intro l q fuel hm hlen
    obtain ⟨qf, h1, h2⟩ := drain_models SIZE l fuel q hm hlen
    have hse := models_nil_eq SIZE qf h2
    refine ⟨qf, h1, hse, ?_⟩
    rw [empty_eq_decide, hse]
    simp

/-- Witness for C8: draining the capacity-4 queue holding [10, 20]. -/
theorem claim8_iteration_witness :
    ∃ qf, drain 4 4 (⟨[some 10, some 20, none, none], 0, 2⟩ : ConstQueue Nat) =
      .ok ([10, 20], qf) ∧ qf.start = qf.«end» ∧ empty qf = true :=
  (claim8_iteration Nat 4).2.2.1 [10, 20] ⟨[some 10, some 20, none, none], 0, 2⟩ 4
    (by decide) (by decide)

/-- Claim C9: `force_push` succeeds with exactly the effect of a successful
push, and aborts (panics) precisely when push would fail with `QueueFull`;
at the moment of the abort the queue state is still the unmodified input
state. -/
theorem claim9_force_push (Ty : Type) (SIZE : Nat) (q : ConstQueue Ty) (item : Ty) :
    (∀ q1, force_push SIZE q item = .ok q1 ↔ push SIZE q item = (.ok (), q1))
    ∧ (force_push SIZE q item = .panicked ↔ (push SIZE q item).1 = .error .QueueFull)
    ∧ (force_push SIZE q item = .panicked → (push SIZE q item).2 = q) := by
  by_cases hc : (q.«end» + 1) % SIZE = q.start <;> simp [force_push, push, hc]

/-- Witness for C9: forcing a push onto a full capacity-3 queue leaves the
state unchanged at the abort. -/
theorem claim9_force_push_witness :
    (push 3 (⟨[some 1, some 2, none], 0, 2⟩ : ConstQueue Nat) 7).2 =
      ⟨[some 1, some 2, none], 0, 2⟩ :=
  (claim9_force_push Nat 3 ⟨[some 1, some 2, none], 0, 2⟩ 7).2.2 (by decide)

/-- Claim C10: representation invariant — on every reachable state the
cursors are in range, the buffer keeps its length SIZE, and slot `i` holds
an element exactly when `i` lies in the wrapped run of `(end + SIZE − start)
% SIZE` indices starting at `start`; every slot outside that run is `none`
because pop vacates slots via take. -/
theorem claim10_invariant (Ty : Type) (SIZE : Nat) (hS : 1 ≤ SIZE) (q : ConstQueue Ty)
    (hr : Reachable Ty SIZE q) :
    q.buff.length = SIZE ∧ q.start < SIZE ∧ q.«end» < SIZE ∧
    ∀ i, i < SIZE → ((q.buff.getD i none).isSome = true ↔
      i ∈ runIdx SIZE q.start ((q.«end» + SIZE - q.start) % SIZE)) := by
  obtain ⟨l, hm⟩ := reachable_models SIZE hS q hr
  obtain ⟨hb, hs, he, hl, hE, hocc, hvac⟩ := hm
  have hrun : (q.«end» + SIZE - q.start) % SIZE = l.length := by
    rw [hE]
    exact run_len SIZE q.start l.length hs hl
  refine ⟨hb, hs, he, ?_⟩
  intro i hi
  rw [hrun]
  constructor
  · intro hsome
    by_contra hnotin
    have hmiss : ∀ k, k < l.length → i ≠ (q.start + k) % SIZE := by
      intro k hk hcontra
      refine hnotin ?_
      unfold runIdx
      simp only [List.mem_map, List.mem_range]
      exact ⟨k, hk, hcontra.symm⟩
    rw [hvac i hi hmiss] at hsome
    simp at hsome
  · intro hin
    unfold runIdx at hin
    simp only [List.mem_map, List.mem_range] at hin
    obtain ⟨k, hk, hkeq⟩ := hin
    rw [← hkeq, hocc k hk]
    simp [List.getElem?_eq_getElem hk]

/-- Witness for C10 on the fresh capacity-3 queue. -/
theorem claim10_invariant_witness :
    (new Nat 3).buff.length = 3 ∧ (new Nat 3).start < 3 ∧ (new Nat 3).«end» < 3 ∧
    ∀ i, i < 3 → (((new Nat 3).buff.getD i none).isSome = true ↔
      i ∈ runIdx 3 (new Nat 3).start (((new Nat 3).«end» + 3 - (new Nat 3).start) % 3)) :=
  claim10_invariant Nat 3 (by decide) (new Nat 3) Relation.ReflTransGen.refl

end ConstQueue
